import Mathlib

/-!
# Verification of the todo Solana program (`src/todo/src/lib.rs`)

Shallow embedding of the program's data model, Borsh codec and the two
instruction processors, followed by theorems settling the specification
claims.

Modelling conventions:
* Bytes are `Nat` values; `Bytes l` says every entry is `< 256`.
* A Rust `String` is modelled by its UTF-8 byte list, together with the
  well-formedness facts (`utf8Valid`, length below `2^32`) that the Rust
  type system guarantees.
* The host environment (Solana runtime) is abstracted exactly where the
  program delegates to it: `create_account` is modelled as producing a
  zero-filled buffer of `ACCOUNT_SPACE` bytes owned by the program and
  funded with the host-computed rent `rent_cost`, and the clock sysvar is
  modelled as a supplied `u64` timestamp.  Everything the program itself
  computes (the Borsh encode/decode, the checks, the scan, the write-back)
  is translated directly from the source.
-/

namespace TodoProgram

set_option maxRecDepth 40000

instance {ε α : Type} [DecidableEq ε] [DecidableEq α] : DecidableEq (Except ε α) :=
  fun x y =>
    match x, y with
    | .ok a, .ok b =>
      if h : a = b then .isTrue (by rw [h]) else .isFalse (fun he => h (Except.ok.inj he))
    | .error a, .error b =>
      if h : a = b then .isTrue (by rw [h]) else .isFalse (fun he => h (Except.error.inj he))
    | .ok _, .error _ => .isFalse (fun h => Except.noConfusion h)
    | .error _, .ok _ => .isFalse (fun h => Except.noConfusion h)

/-- Every entry of the list is a byte value. -/
def Bytes (l : List Nat) : Prop := ∀ b ∈ l, b < 256

instance (l : List Nat) : Decidable (Bytes l) :=
  List.decidableBAll _ l

/-- Little-endian encoding of `n` into `w` bytes (used for Borsh `u32`
and `u64` fields). -/
def toLE : Nat → Nat → List Nat
  | 0, _ => []
  | w + 1, n => n % 256 :: toLE w (n / 256)

/-- Little-endian decoding of a byte list into a natural number. -/
def fromLE : List Nat → Nat
  | [] => 0
  | b :: bs => b + 256 * fromLE bs

/-- Split off the first `n` bytes of the input, failing when fewer are
available (the behaviour of Borsh readers on a byte slice). -/
def readBytes (n : Nat) (bs : List Nat) : Option (List Nat × List Nat) :=
  if n ≤ bs.length then some (bs.take n, bs.drop n) else none

/-- Borsh `u32` deserialization: four little-endian bytes. -/
def readU32 (bs : List Nat) : Option (Nat × List Nat) :=
  (readBytes 4 bs).map (fun p => (fromLE p.1, p.2))

/-- A UTF-8 continuation byte (`0x80`–`0xBF`). -/
def isCont (b : Nat) : Bool := 0x80 ≤ b && b ≤ 0xBF

/-- UTF-8 validity of a byte list, per RFC 3629 as enforced by Rust's
`String::from_utf8` (rejecting overlong forms, surrogates and code points
above `U+10FFFF`). -/
def utf8Valid : List Nat → Bool
  | [] => true
  | b :: rest =>
    if b ≤ 0x7F then utf8Valid rest
    else if 0xC2 ≤ b && b ≤ 0xDF then
      match rest with
      | b1 :: r => isCont b1 && utf8Valid r
      | [] => false
    else if b = 0xE0 then
      match rest with
      | b1 :: b2 :: r => (0xA0 ≤ b1 && b1 ≤ 0xBF) && isCont b2 && utf8Valid r
      | _ => false
    else if (0xE1 ≤ b && b ≤ 0xEC) || b = 0xEE || b = 0xEF then
      match rest with
      | b1 :: b2 :: r => isCont b1 && isCont b2 && utf8Valid r
      | _ => false
    else if b = 0xED then
      match rest with
      | b1 :: b2 :: r => (0x80 ≤ b1 && b1 ≤ 0x9F) && isCont b2 && utf8Valid r
      | _ => false
    else if b = 0xF0 then
      match rest with
      | b1 :: b2 :: b3 :: r => (0x90 ≤ b1 && b1 ≤ 0xBF) && isCont b2 && isCont b3 && utf8Valid r
      | _ => false
    else if 0xF1 ≤ b && b ≤ 0xF3 then
      match rest with
      | b1 :: b2 :: b3 :: r => isCont b1 && isCont b2 && isCont b3 && utf8Valid r
      | _ => false
    else if b = 0xF4 then
      match rest with
      | b1 :: b2 :: b3 :: r => (0x80 ≤ b1 && b1 ≤ 0x8F) && isCont b2 && isCont b3 && utf8Valid r
      | _ => false
    else false

/-- Borsh serialization of a Rust `String`: 4-byte little-endian length
followed by the UTF-8 bytes. -/
def encodeString (s : List Nat) : List Nat := toLE 4 s.length ++ s

/-- Borsh `String::deserialize`: read the `u32` length, read that many
bytes, validate them as UTF-8. -/
def decodeString (bs : List Nat) : Option (List Nat × List Nat) :=
  match readU32 bs with
  | none => none
  | some (len, r1) =>
    match readBytes len r1 with
    | none => none
    | some (nm, r2) => if utf8Valid nm then some (nm, r2) else none

/-- Borsh `bool` serialization: a single byte, `1` for `true`. -/
def encodeBool (b : Bool) : List Nat := [if b then 1 else 0]

/-- Borsh `bool` deserialization: one byte, which must be `0` or `1`. -/
def decodeBool : List Nat → Option (Bool × List Nat)
  | [] => none
  | b :: r => if b = 0 then some (false, r) else if b = 1 then some (true, r) else none

/-- `struct Todo { name: String, done: bool, publish_date: u64 }`. -/
structure Todo where
  name : List Nat
  done : Bool
  publish_date : Nat
  deriving DecidableEq

/-- Borsh serialization of a `Todo` (fields in declaration order). -/
def encodeTodo (t : Todo) : List Nat :=
  encodeString t.name ++ encodeBool t.done ++ toLE 8 t.publish_date

/-- Borsh deserialization of a `Todo`. -/
def decodeTodo (bs : List Nat) : Option (Todo × List Nat) :=
  match decodeString bs with
  | none => none
  | some (nm, r1) =>
    match decodeBool r1 with
    | none => none
    | some (d, r2) =>
      match readBytes 8 r2 with
      | none => none
      | some (ts, r3) => some (⟨nm, d, fromLE ts⟩, r3)

/-- Borsh serialization of the elements of a `Vec<Todo>` (the length
prefix is emitted by `encodeAccount`). -/
def encodeTodos (ts : List Todo) : List Nat := (ts.map encodeTodo).flatten

/-- Borsh deserialization of `count` consecutive `Todo` values. -/
def decodeTodos : Nat → List Nat → Option (List Todo × List Nat)
  | 0, bs => some ([], bs)
  | n + 1, bs =>
    match decodeTodo bs with
    | none => none
    | some (t, r) =>
      match decodeTodos n r with
      | none => none
      | some (ts, r2) => some (t :: ts, r2)

/-- `struct TodoAccount { todos: Vec<Todo> }`. -/
structure TodoAccount where
  todos : List Todo
  deriving DecidableEq

/-- Borsh serialization of a `TodoAccount`: `u32` element count followed
by the encoded elements. -/
def encodeAccount (a : TodoAccount) : List Nat :=
  toLE 4 a.todos.length ++ encodeTodos a.todos

/-- Borsh deserialization of a `TodoAccount` from the front of a buffer. -/
def decodeAccount (bs : List Nat) : Option (TodoAccount × List Nat) :=
  match readU32 bs with
  | none => none
  | some (n, r) => (decodeTodos n r).map (fun p => (⟨p.1⟩, p.2))

/-- `TodoAccount::try_from_slice`: deserialize and require that the whole
input was consumed (Borsh returns a `not all bytes read` error on
trailing bytes). -/
def tryFromSlice (bs : List Nat) : Option TodoAccount :=
  match decodeAccount bs with
  | none => none
  | some (a, rest) => if rest = [] then some a else none

/-- The well-formedness facts a value of Rust type `Todo` satisfies by
construction: the name is a UTF-8 byte string of `u32` length, and the
timestamp fits in a `u64`. -/
def ValidTodo (t : Todo) : Prop :=
  Bytes t.name ∧ utf8Valid t.name = true ∧ t.name.length < 2 ^ 32 ∧ t.publish_date < 2 ^ 64

instance (t : Todo) : Decidable (ValidTodo t) :=
  decidable_of_iff
    (Bytes t.name ∧ utf8Valid t.name = true ∧ t.name.length < 2 ^ 32 ∧ t.publish_date < 2 ^ 64)
    Iff.rfl

/-- Well-formedness of a `TodoAccount` value. -/
def ValidAccount (a : TodoAccount) : Prop :=
  (∀ t ∈ a.todos, ValidTodo t) ∧ a.todos.length < 2 ^ 32

instance (a : TodoAccount) : Decidable (ValidAccount a) :=
  decidable_of_iff ((∀ t ∈ a.todos, ValidTodo t) ∧ a.todos.length < 2 ^ 32) Iff.rfl

/-- The `ProgramError` variants this program actually returns.  The spec's
names map to them as follows: `MalformedInstruction` and `ItemNotFound`
are `InvalidInstructionData`; `CorruptState` and `AlreadyDone` are
`InvalidAccountData`; `PermissionDenied` (and the system-program check)
are `IncorrectProgramId`; a failed Borsh write-back is `BorshIoError`. -/
inductive ProgramError where
  | InvalidInstructionData
  | IncorrectProgramId
  | InvalidAccountData
  | BorshIoError
  deriving DecidableEq

/-- `enum TodoInstruction { NewTodo { todo: String }, MarkDone { todo: String } }`. -/
inductive TodoInstruction where
  | NewTodo (todo : List Nat)
  | MarkDone (todo : List Nat)
  deriving DecidableEq

/-- `TodoInstruction::unpack`: split off the variant byte, then run Borsh
`String::deserialize` on the remainder (which ignores trailing bytes). -/
def unpack (input : List Nat) : Except ProgramError TodoInstruction :=
  match input with
  | [] => .error .InvalidInstructionData
  | variant :: rest =>
    match variant with
    | 0 =>
      match decodeString rest with
      | some (todo, _) => .ok (.NewTodo todo)
      | none => .error .InvalidInstructionData
    | 1 =>
      match decodeString rest with
      | some (todo, _) => .ok (.MarkDone todo)
      | none => .error .InvalidInstructionData
    | _ => .error .InvalidInstructionData

/-- Account addresses, modelled as opaque identifiers. -/
abbrev Pubkey := Nat

/-- The system program's address (`solana_program::system_program::ID`),
as a distinguished constant. -/
def systemProgramID : Pubkey := 0

/-- The observable state of the todo account: its declared owner, its
data buffer, and its balance. -/
structure AccountState where
  owner : Pubkey
  data : List Nat
  lamports : Nat
  deriving DecidableEq

/-- The state an instruction can touch: the todo account plus the payer's
balance (the funding source for `create_account`). -/
structure ExecState where
  todoAcct : AccountState
  payerLamports : Nat
  deriving DecidableEq

/-- `serialize(&mut &mut data[..])`: Borsh writes the encoding into the
front of the buffer, leaving the tail untouched.  When the encoding does
not fit, the bytes that fit are written and the call fails with a Borsh
I/O error (`write_all` on a `&mut [u8]` writes greedily, then reports
`failed to write whole buffer`). -/
def writeSerialize (a : TodoAccount) (buf : List Nat) :
    Except ProgramError Unit × List Nat :=
  let enc := encodeAccount a
  if enc.length ≤ buf.length then (.ok (), enc ++ buf.drop enc.length)
  else (.error .BorshIoError, enc.take buf.length)

/-- `let account_space = 1024;` — the fixed capacity of the account. -/
def ACCOUNT_SPACE : Nat := 1024

/-- `process_new_todo`.  The order of operations follows the source: the
system-program check, the clock read, the init-or-decode of the account
data, the ownership check, the append, and the serialize-back.  The
`create_account` CPI is abstracted as the host behaviour the program
requests: a zero-filled buffer of `ACCOUNT_SPACE` bytes owned by
`program_id`, funded with `rent_cost` lamports from the payer. -/
def process_new_todo (program_id sys_key : Pubkey) (rent_cost clock_ts : Nat)
    (st : ExecState) (todo_name : List Nat) :
    Except ProgramError Unit × ExecState :=
  if sys_key ≠ systemProgramID then (.error .IncorrectProgramId, st)
  else
    let current_timestamp := clock_ts
    let step : Except ProgramError (TodoAccount × ExecState) :=
      if st.todoAcct.data = [] then
        .ok (⟨[]⟩,
          ⟨⟨program_id, List.replicate ACCOUNT_SPACE 0, rent_cost⟩,
           st.payerLamports - rent_cost⟩)
      else
        match tryFromSlice st.todoAcct.data with
        | none => .error .InvalidAccountData
        | some a => .ok (a, st)
    match step with
    | .error e => (.error e, st)
    | .ok (todo_account_struct, st1) =>
      if st1.todoAcct.owner ≠ program_id then (.error .IncorrectProgramId, st1)
      else
        let updated : TodoAccount :=
          ⟨todo_account_struct.todos ++ [⟨todo_name, false, current_timestamp⟩]⟩
        let w := writeSerialize updated st1.todoAcct.data
        (w.1, ⟨⟨st1.todoAcct.owner, w.2, st1.todoAcct.lamports⟩, st1.payerLamports⟩)

/-- The in-place `done := true` of the first list entry whose name equals
the target (`iter_mut().find(..)` followed by the assignment). -/
def setDoneFirst : List Todo → List Nat → List Todo
  | [], _ => []
  | t :: ts, n =>
    if t.name = n then ⟨t.name, true, t.publish_date⟩ :: ts
    else t :: setDoneFirst ts n

/-- `process_mark_done`: ownership check, decode, linear scan for the
first name match, already-done check, flag update, serialize-back. -/
def process_mark_done (program_id : Pubkey) (acct : AccountState)
    (todo_name : List Nat) : Except ProgramError Unit × AccountState :=
  if acct.owner ≠ program_id then (.error .IncorrectProgramId, acct)
  else
    match tryFromSlice acct.data with
    | none => (.error .InvalidAccountData, acct)
    | some a =>
      match a.todos.find? (fun t => t.name == todo_name) with
      | none => (.error .InvalidInstructionData, acct)
      | some t =>
        if t.done then (.error .InvalidAccountData, acct)
        else
          let w := writeSerialize ⟨setDoneFirst a.todos todo_name⟩ acct.data
          (w.1, ⟨acct.owner, w.2, acct.lamports⟩)

/-- `process_instruction`: unpack, then dispatch. -/
def process_instruction (program_id sys_key : Pubkey) (rent_cost clock_ts : Nat)
    (st : ExecState) (instruction_data : List Nat) :
    Except ProgramError Unit × ExecState :=
  match unpack instruction_data with
  | .error e => (.error e, st)
  | .ok (.NewTodo todo) =>
      process_new_todo program_id sys_key rent_cost clock_ts st todo
  | .ok (.MarkDone todo) =>
      let w := process_mark_done program_id st.todoAcct todo
      (w.1, ⟨w.2, st.payerLamports⟩)

/-- `done` never transitions from `true` back to `false` at any position
that exists in both collections. -/
def doneMono (a a2 : TodoAccount) : Prop :=
  ∀ (i : Nat) (t t2 : Todo), a.todos[i]? = some t → a2.todos[i]? = some t2 →
    t.done = true → t2.done = true

/-! ## Codec lemmas -/

theorem toLE_length (w n : Nat) : (toLE w n).length = w := by
  induction w generalizing n with
  | zero => rfl
  | succ w ih => simp [toLE, ih]

theorem toLE_bytes (w n : Nat) : Bytes (toLE w n) := by
  induction w generalizing n with
  | zero => intro b hb; simp [toLE] at hb
  | succ w ih =>
    intro b hb
    simp only [toLE, List.mem_cons] at hb
    rcases hb with h | h
    · omega
    · exact ih _ b h

theorem fromLE_toLE_mod (w n : Nat) : fromLE (toLE w n) = n % 256 ^ w := by
  induction w generalizing n with
  | zero => simp [toLE, fromLE, Nat.mod_one]
  | succ w ih =>
    have hsplit : n % (256 * 256 ^ w) = n % 256 + 256 * (n / 256 % 256 ^ w) :=
      Nat.mod_mul
    simp only [toLE, fromLE, ih]
    rw [pow_succ, mul_comm (256 ^ w) 256, hsplit]

theorem fromLE_toLE (w n : Nat) (h : n < 256 ^ w) : fromLE (toLE w n) = n := by
  rw [fromLE_toLE_mod, Nat.mod_eq_of_lt h]

theorem toLE_fromLE (bs : List Nat) (h : Bytes bs) :
    toLE bs.length (fromLE bs) = bs := by
  induction bs with
  | nil => rfl
  | cons b r ih =>
    have hb : b < 256 := h b (List.mem_cons_self b r)
    have hr : Bytes r := fun x hx => h x (List.mem_cons_of_mem b hx)
    simp only [List.length_cons, toLE, fromLE, List.cons.injEq]
    constructor
    · rw [Nat.add_mul_mod_self_left, Nat.mod_eq_of_lt hb]
    · rw [Nat.add_mul_div_left _ _ (by omega : (0:Nat) < 256),
        Nat.div_eq_of_lt hb, Nat.zero_add]
      exact ih hr

theorem fromLE_lt (bs : List Nat) (h : Bytes bs) : fromLE bs < 256 ^ bs.length := by
  induction bs with
  | nil => simp [fromLE]
  | cons b r ih =>
    have hb : b < 256 := h b (List.mem_cons_self b r)
    have hr := ih (fun x hx => h x (List.mem_cons_of_mem b hx))
    have h2 : 256 * (fromLE r + 1) ≤ 256 * 256 ^ r.length :=
      Nat.mul_le_mul_left 256 (Nat.succ_le_of_lt hr)
    simp only [fromLE, List.length_cons, pow_succ, mul_comm (256 ^ r.length) 256]
    omega

theorem bytes_append (l r : List Nat) : Bytes (l ++ r) ↔ Bytes l ∧ Bytes r := by
  simp [Bytes, List.mem_append, or_imp, forall_and]

theorem readBytes_append (l r : List Nat) : readBytes l.length (l ++ r) = some (l, r) := by
  simp [readBytes, List.take_left, List.drop_left]

theorem readBytes_sound (n : Nat) (bs v r : List Nat)
    (h : readBytes n bs = some (v, r)) : bs = v ++ r ∧ v.length = n := by
  unfold readBytes at h
  split at h
  · rename_i hle
    injection h with h
    injection h with h1 h2
    subst h1; subst h2
    exact ⟨(List.take_append_drop n bs).symm, by simp [List.length_take]; omega⟩
  · exact absurd h (by simp)

theorem readU32_append (n : Nat) (h : n < 2 ^ 32) (r : List Nat) :
    readU32 (toLE 4 n ++ r) = some (n, r) := by
  have h4 : (toLE 4 n).length = 4 := toLE_length 4 n
  have hrb := readBytes_append (toLE 4 n) r
  rw [h4] at hrb
  unfold readU32
  rw [hrb]
  simp [fromLE_toLE 4 n (by norm_num at h ⊢; omega)]

theorem readU32_sound (bs : List Nat) (n : Nat) (r : List Nat) (hb : Bytes bs)
    (h : readU32 bs = some (n, r)) :
    bs = toLE 4 n ++ r ∧ n < 2 ^ 32 ∧ Bytes r := by
  unfold readU32 at h
  cases h1 : readBytes 4 bs with
  | none => rw [h1] at h; exact absurd h (by simp)
  | some p =>
    rw [h1] at h
    obtain ⟨v, rr⟩ := p
    simp only [Option.map_some', Option.some.injEq, Prod.mk.injEq] at h
    obtain ⟨hn, hr⟩ := h
    obtain ⟨hbs, hlen⟩ := readBytes_sound 4 bs v rr h1
    subst hbs
    have hv : Bytes v := ((bytes_append v rr).1 hb).1
    have hrb2 : Bytes rr := ((bytes_append v rr).1 hb).2
    rw [← hr, ← hn]
    refine ⟨?_, ?_, hrb2⟩
    · rw [← hlen, toLE_fromLE v hv]
    · have := fromLE_lt v hv
      rw [hlen] at this
      norm_num at this ⊢
      omega

theorem decodeString_encode (s rest : List Nat) (hu : utf8Valid s = true)
    (hl : s.length < 2 ^ 32) :
    decodeString (encodeString s ++ rest) = some (s, rest) := by
  simp [decodeString, encodeString, List.append_assoc,
    readU32_append s.length hl (s ++ rest), readBytes_append, hu]

theorem decodeString_sound (bs s r : List Nat) (hb : Bytes bs)
    (h : decodeString bs = some (s, r)) :
    bs = encodeString s ++ r ∧ utf8Valid s = true ∧ s.length < 2 ^ 32 ∧
      Bytes s ∧ Bytes r := by
  unfold decodeString at h
  cases h1 : readU32 bs with
  | none => simp [h1] at h
  | some p =>
    obtain ⟨len, r1⟩ := p
    obtain ⟨hbs, hlen, hr1⟩ := readU32_sound bs len r1 hb h1
    simp [h1] at h
    cases h2 : readBytes len r1 with
    | none => simp [h2] at h
    | some q =>
      obtain ⟨nm, r2⟩ := q
      obtain ⟨hr1eq, hnmlen⟩ := readBytes_sound len r1 nm r2 h2
      simp [h2] at h
      by_cases hu : utf8Valid nm = true
      · simp [hu] at h
        obtain ⟨h5, h6⟩ := h
        rw [← h5, ← h6]
        have hnmb : Bytes nm := by
          rw [hr1eq] at hr1
          exact ((bytes_append nm r2).1 hr1).1
        have hrb : Bytes r2 := by
          rw [hr1eq] at hr1
          exact ((bytes_append nm r2).1 hr1).2
        refine ⟨?_, hu, ?_, hnmb, hrb⟩
        · rw [hbs, hr1eq]
          unfold encodeString
          rw [hnmlen, List.append_assoc]
        · rw [hnmlen]; exact hlen
      · rw [Bool.not_eq_true] at hu
        simp [hu] at h

theorem decodeBool_encode (b : Bool) (rest : List Nat) :
    decodeBool (encodeBool b ++ rest) = some (b, rest) := by
  cases b <;> simp [encodeBool, decodeBool]

theorem decodeBool_sound (bs : List Nat) (b : Bool) (r : List Nat)
    (h : decodeBool bs = some (b, r)) : bs = encodeBool b ++ r := by
  match bs with
  | [] => exact absurd h (by simp [decodeBool])
  | x :: rest =>
    simp only [decodeBool] at h
    by_cases h0 : x = 0
    · rw [if_pos h0] at h
      rw [Option.some.injEq, Prod.mk.injEq] at h
      rw [← h.2, ← h.1, h0]
      simp [encodeBool]
    · rw [if_neg h0] at h
      by_cases h1 : x = 1
      · rw [if_pos h1] at h
        rw [Option.some.injEq, Prod.mk.injEq] at h
        rw [← h.2, ← h.1, h1]
        simp [encodeBool]
      · rw [if_neg h1] at h
        exact absurd h (by simp)

theorem bytes_encodeBool (b : Bool) : Bytes (encodeBool b) := by
  cases b <;> simp [Bytes, encodeBool]

theorem decodeTodo_encode (t : Todo) (rest : List Nat) (hv : ValidTodo t) :
    decodeTodo (encodeTodo t ++ rest) = some (t, rest) := by
  obtain ⟨hb, hu, hl, hts⟩ := hv
  have h8 := readBytes_append (toLE 8 t.publish_date) rest
  rw [toLE_length 8 t.publish_date] at h8
  simp [decodeTodo, encodeTodo, List.append_assoc,
    decodeString_encode t.name _ hu hl, decodeBool_encode, h8,
    fromLE_toLE 8 t.publish_date (by norm_num at hts ⊢; omega)]

theorem decodeTodo_sound (bs : List Nat) (t : Todo) (r : List Nat) (hb : Bytes bs)
    (h : decodeTodo bs = some (t, r)) :
    bs = encodeTodo t ++ r ∧ ValidTodo t ∧ Bytes r := by
  unfold decodeTodo at h
  cases h1 : decodeString bs with
  | none => simp [h1] at h
  | some p =>
    obtain ⟨nm, r1⟩ := p
    obtain ⟨hbs, hu, hl, hnm, hr1⟩ := decodeString_sound bs nm r1 hb h1
    simp [h1] at h
    cases h2 : decodeBool r1 with
    | none => simp [h2] at h
    | some q =>
      obtain ⟨d, r2⟩ := q
      have hr1eq := decodeBool_sound r1 d r2 h2
      have hr2 : Bytes r2 := by
        rw [hr1eq] at hr1
        exact ((bytes_append _ _).1 hr1).2
      simp [h2] at h
      cases h3 : readBytes 8 r2 with
      | none => simp [h3] at h
      | some q3 =>
        obtain ⟨ts, r3⟩ := q3
        obtain ⟨hr2eq, htslen⟩ := readBytes_sound 8 r2 ts r3 h3
        simp [h3] at h
        obtain ⟨h6, h7⟩ := h
        rw [← h6, ← h7]
        have hts : Bytes ts := by
          rw [hr2eq] at hr2
          exact ((bytes_append _ _).1 hr2).1
        have hr3 : Bytes r3 := by
          rw [hr2eq] at hr2
          exact ((bytes_append _ _).1 hr2).2
        have htsenc : toLE 8 (fromLE ts) = ts := by
          have h4 := toLE_fromLE ts hts
          rw [htslen] at h4
          exact h4
        have htslt : fromLE ts < 2 ^ 64 := by
          have h5 := fromLE_lt ts hts
          rw [htslen] at h5
          norm_num at h5 ⊢
          omega
        refine ⟨?_, ⟨hnm, hu, hl, htslt⟩, hr3⟩
        rw [hbs, hr1eq, hr2eq]
        unfold encodeTodo
        simp only []
        rw [htsenc, List.append_assoc, List.append_assoc]

theorem encodeTodos_cons (t : Todo) (ts : List Todo) :
    encodeTodos (t :: ts) = encodeTodo t ++ encodeTodos ts := by
  simp [encodeTodos]

theorem decodeTodos_encode (ts : List Todo) (rest : List Nat)
    (hv : ∀ t ∈ ts, ValidTodo t) :
    decodeTodos ts.length (encodeTodos ts ++ rest) = some (ts, rest) := by
  induction ts generalizing rest with
  | nil => simp [decodeTodos, encodeTodos]
  | cons t ts ih =>
    have hvt : ValidTodo t := hv t (List.mem_cons_self t ts)
    have hvs : ∀ u ∈ ts, ValidTodo u := fun u hu => hv u (List.mem_cons_of_mem t hu)
    simp [decodeTodos, encodeTodos_cons, List.append_assoc,
      decodeTodo_encode t _ hvt, ih rest hvs]

theorem decodeTodos_encode_nil (ts : List Todo) (hv : ∀ t ∈ ts, ValidTodo t) :
    decodeTodos ts.length (encodeTodos ts) = some (ts, []) := by
  have h := decodeTodos_encode ts [] hv
  simpa using h

theorem decodeTodos_sound (n : Nat) (bs : List Nat) (ts : List Todo) (r : List Nat)
    (hb : Bytes bs) (h : decodeTodos n bs = some (ts, r)) :
    bs = encodeTodos ts ++ r ∧ ts.length = n ∧ (∀ t ∈ ts, ValidTodo t) ∧ Bytes r := by
  induction n generalizing bs ts r with
  | zero =>
    rw [show decodeTodos 0 bs = some ([], bs) from rfl,
      Option.some.injEq, Prod.mk.injEq] at h
    rw [← h.1, ← h.2]
    exact ⟨by simp [encodeTodos], rfl, by simp, hb⟩
  | succ n ih =>
    simp only [decodeTodos] at h
    cases h1 : decodeTodo bs with
    | none => simp [h1] at h
    | some p =>
      obtain ⟨t, r1⟩ := p
      obtain ⟨hbs, hvt, hr1⟩ := decodeTodo_sound bs t r1 hb h1
      simp [h1] at h
      cases h2 : decodeTodos n r1 with
      | none => simp [h2] at h
      | some q =>
        obtain ⟨ts2, r2⟩ := q
        obtain ⟨hr1eq, hlen, hvs, hr2⟩ := ih r1 ts2 r2 hr1 h2
        simp [h2] at h
        obtain ⟨h3, h4⟩ := h
        rw [← h3, ← h4]
        refine ⟨?_, by simp [hlen], ?_, hr2⟩
        · rw [hbs, hr1eq, encodeTodos_cons, List.append_assoc]
        · intro u hu
          rcases List.mem_cons.1 hu with h5 | h5
          · rw [h5]; exact hvt
          · exact hvs u h5

theorem decodeTodo_nil : decodeTodo [] = none := by
  simp [decodeTodo, decodeString, readU32, readBytes]

theorem decodeTodos_exhausted (n : Nat) (bs : List Nat) (ts : List Todo)
    (h : decodeTodos n bs = some (ts, [])) :
    decodeTodos (n + 1) bs = none := by
  induction n generalizing bs ts with
  | zero =>
    rw [show decodeTodos 0 bs = some ([], bs) from rfl,
      Option.some.injEq, Prod.mk.injEq] at h
    rw [h.2]
    simp [decodeTodos, decodeTodo_nil]
  | succ n ih =>
    simp only [decodeTodos] at h ⊢
    cases h1 : decodeTodo bs with
    | none => simp [h1] at h
    | some p =>
      obtain ⟨t, r1⟩ := p
      simp [h1] at h ⊢
      cases h2 : decodeTodos n r1 with
      | none => simp [h2] at h
      | some q =>
        obtain ⟨ts2, r2⟩ := q
        simp [h2] at h
        have h3 : decodeTodos n r1 = some (ts2, []) := by
          rw [h2, h.2]
        have h5 := ih r1 ts2 h3
        simp only [decodeTodos] at h5
        rw [h5]

theorem decodeAccount_sound (bs : List Nat) (a : TodoAccount) (rest : List Nat)
    (hb : Bytes bs) (h : decodeAccount bs = some (a, rest)) :
    bs = encodeAccount a ++ rest ∧ ValidAccount a ∧ Bytes rest := by
  unfold decodeAccount at h
  cases h1 : readU32 bs with
  | none => simp [h1] at h
  | some p =>
    obtain ⟨n, r⟩ := p
    obtain ⟨hbs, hn, hr⟩ := readU32_sound bs n r hb h1
    simp [h1] at h
    obtain ⟨ts, h2, h3⟩ := h
    obtain ⟨hreq, hlen, hvs, hr2⟩ := decodeTodos_sound n r ts rest hr h2
    rw [← h3]
    refine ⟨?_, ⟨hvs, by rw [hlen]; exact hn⟩, hr2⟩
    rw [hbs, hreq]
    simp [encodeAccount, List.append_assoc, hlen]

theorem tryFromSlice_sound (bs : List Nat) (a : TodoAccount) (hb : Bytes bs)
    (h : tryFromSlice bs = some a) :
    bs = encodeAccount a ∧ ValidAccount a := by
  unfold tryFromSlice at h
  cases h1 : decodeAccount bs with
  | none => simp [h1] at h
  | some p =>
    obtain ⟨a2, rest⟩ := p
    simp [h1] at h
    by_cases hrest : rest = []
    · simp [hrest] at h
      obtain ⟨hbs, hv, hb2⟩ := decodeAccount_sound bs a2 rest hb h1
      rw [← h]
      constructor
      · rw [hbs, hrest]
        simp
      · exact hv
    · simp [hrest] at h

theorem tryFromSlice_encode (a : TodoAccount) (hv : ValidAccount a) :
    tryFromSlice (encodeAccount a) = some a := by
  obtain ⟨hvt, hlen⟩ := hv
  simp [tryFromSlice, decodeAccount, encodeAccount,
    readU32_append a.todos.length hlen (encodeTodos a.todos),
    decodeTodos_encode_nil a.todos hvt]

theorem tryFromSlice_nil : tryFromSlice [] = none := by
  simp [tryFromSlice, decodeAccount, readU32, readBytes]

theorem bytes_encodeTodo (t : Todo) (h : Bytes t.name) : Bytes (encodeTodo t) := by
  unfold encodeTodo encodeString
  rw [bytes_append, bytes_append, bytes_append]
  refine ⟨⟨⟨toLE_bytes 4 t.name.length, h⟩, bytes_encodeBool t.done⟩, toLE_bytes 8 t.publish_date⟩

theorem bytes_encodeTodos (ts : List Todo) (h : ∀ t ∈ ts, Bytes t.name) :
    Bytes (encodeTodos ts) := by
  induction ts with
  | nil => simp [encodeTodos, Bytes]
  | cons t ts ih =>
    rw [encodeTodos_cons, bytes_append]
    exact ⟨bytes_encodeTodo t (h t (List.mem_cons_self t ts)),
      ih (fun u hu => h u (List.mem_cons_of_mem t hu))⟩

theorem bytes_encodeAccount (a : TodoAccount) (h : ∀ t ∈ a.todos, Bytes t.name) :
    Bytes (encodeAccount a) := by
  unfold encodeAccount
  rw [bytes_append]
  exact ⟨toLE_bytes 4 a.todos.length, bytes_encodeTodos a.todos h⟩

theorem encodeTodo_length (t : Todo) : (encodeTodo t).length = 13 + t.name.length := by
  simp [encodeTodo, encodeString, encodeBool, toLE_length]
  omega

theorem encodeAccount_length (a : TodoAccount) :
    (encodeAccount a).length = 4 + (encodeTodos a.todos).length := by
  simp [encodeAccount, toLE_length]

theorem encodeAccount_append_length (ts : List Todo) (t : Todo) :
    (encodeAccount ⟨ts ++ [t]⟩).length =
      (encodeAccount ⟨ts⟩).length + 13 + t.name.length := by
  simp [encodeAccount, toLE_length, encodeTodos, encodeTodo_length]
  omega

/-! ## Lemmas about the in-place update of the first matching item -/

theorem setDoneFirst_length (ts : List Todo) (n : List Nat) :
    (setDoneFirst ts n).length = ts.length := by
  induction ts with
  | nil => rfl
  | cons t ts ih =>
    unfold setDoneFirst
    by_cases h : t.name = n <;> simp [h, ih]

theorem encodeTodos_append (ts : List Todo) (t : Todo) :
    encodeTodos (ts ++ [t]) = encodeTodos ts ++ encodeTodo t := by
  simp [encodeTodos]

theorem encodeTodos_setDoneFirst_length (ts : List Todo) (n : List Nat) :
    (encodeTodos (setDoneFirst ts n)).length = (encodeTodos ts).length := by
  induction ts with
  | nil => rfl
  | cons t ts ih =>
    unfold setDoneFirst
    by_cases h : t.name = n
    · simp [h, encodeTodos_cons, encodeTodo_length]
    · simp [h, encodeTodos_cons, ih]

theorem setDoneFirst_valid (ts : List Todo) (n : List Nat)
    (h : ∀ t ∈ ts, ValidTodo t) : ∀ t ∈ setDoneFirst ts n, ValidTodo t := by
  induction ts with
  | nil => intro u hu; simp [setDoneFirst] at hu
  | cons t ts ih =>
    unfold setDoneFirst
    by_cases hn : t.name = n
    · rw [if_pos hn]
      intro u hu
      rcases List.mem_cons.1 hu with h1 | h1
      · have h2 := h t (List.mem_cons_self t ts)
        rw [h1]
        exact ⟨h2.1, h2.2.1, h2.2.2.1, h2.2.2.2⟩
      · exact h u (List.mem_cons_of_mem t h1)
    · rw [if_neg hn]
      intro u hu
      rcases List.mem_cons.1 hu with h1 | h1
      · rw [h1]; exact h t (List.mem_cons_self t ts)
      · exact ih (fun v hv => h v (List.mem_cons_of_mem t hv)) u h1

theorem setDoneFirst_mono (ts : List Todo) (n : List Nat) :
    ∀ (i : Nat) (t t2 : Todo), ts[i]? = some t → (setDoneFirst ts n)[i]? = some t2 →
      t.done = true → t2.done = true := by
  induction ts with
  | nil => intro i t t2 h; simp at h
  | cons v ts ih =>
    intro i t t2 h h2 hd
    unfold setDoneFirst at h2
    by_cases hn : v.name = n
    · rw [if_pos hn] at h2
      cases i with
      | zero =>
        simp only [List.getElem?_cons_zero, Option.some.injEq] at h2
        rw [← h2]
      | succ i =>
        simp only [List.getElem?_cons_succ] at h h2
        rw [h] at h2
        injection h2 with h3
        rw [← h3]
        exact hd
    · rw [if_neg hn] at h2
      cases i with
      | zero =>
        simp only [List.getElem?_cons_zero, Option.some.injEq] at h h2
        rw [← h2, h]
        exact hd
      | succ i =>
        simp only [List.getElem?_cons_succ] at h h2
        exact ih i t t2 h h2 hd

theorem setDoneFirst_spec (ts : List Todo) (n : List Nat) (t : Todo)
    (h : ts.find? (fun u => u.name == n) = some t) :
    ∃ i : Nat, ts[i]? = some t ∧
      (∀ j : Nat, j < i → ∀ u : Todo, ts[j]? = some u → u.name ≠ n) ∧
      setDoneFirst ts n = ts.set i ⟨t.name, true, t.publish_date⟩ := by
  induction ts with
  | nil => simp [List.find?] at h
  | cons v ts ih =>
    by_cases hn : v.name = n
    · have hb : (v.name == n) = true := beq_iff_eq.mpr hn
      rw [List.find?_cons_of_pos ts (show (fun u => u.name == n) v = true from hb)] at h
      injection h with h1
      refine ⟨0, ?_, ?_, ?_⟩
      · simp [h1]
      · intro j hj; omega
      · unfold setDoneFirst
        rw [if_pos hn, ← h1]
        rfl
    · have hb : (v.name == n) = false := by
        rw [beq_eq_false_iff_ne]
        exact hn
      rw [List.find?_cons_of_neg ts
        (show ¬ (fun u => u.name == n) v = true by simp [hb])] at h
      obtain ⟨i, hi1, hi2, hi3⟩ := ih h
      refine ⟨i + 1, ?_, ?_, ?_⟩
      · simpa using hi1
      · intro j hj u hu
        cases j with
        | zero =>
          simp only [List.getElem?_cons_zero, Option.some.injEq] at hu
          rw [← hu]
          exact hn
        | succ j =>
          simp only [List.getElem?_cons_succ] at hu
          exact hi2 j (by omega) u hu
      · unfold setDoneFirst
        rw [if_neg hn, hi3]
        rfl

/-! ## Behaviour of the processors on their main paths -/

theorem mark_done_success (pid : Pubkey) (acct : AccountState) (name : List Nat)
    (a : TodoAccount) (t : Todo)
    (hb : Bytes acct.data)
    (hown : acct.owner = pid)
    (hdec : tryFromSlice acct.data = some a)
    (hfind : a.todos.find? (fun u => u.name == name) = some t)
    (hnd : t.done = false) :
    process_mark_done pid acct name =
      (.ok (), ⟨acct.owner, encodeAccount ⟨setDoneFirst a.todos name⟩, acct.lamports⟩) := by
  obtain ⟨hdata, hva⟩ := tryFromSlice_sound acct.data a hb hdec
  have hcond : ¬ (acct.owner ≠ pid) := by rw [hown]; simp
  have hlen2 : (encodeAccount ⟨setDoneFirst a.todos name⟩).length = acct.data.length := by
    rw [hdata, encodeAccount_length, encodeAccount_length]
    simp [encodeTodos_setDoneFirst_length]
  simp [process_mark_done, hcond, hdec, hfind, hnd, writeSerialize, hlen2, List.drop_length]

theorem new_todo_nonempty_overflow (pid : Pubkey) (rc cts : Nat) (st : ExecState)
    (name : List Nat) (a : TodoAccount)
    (hb : Bytes st.todoAcct.data)
    (hown : st.todoAcct.owner = pid)
    (hdec : tryFromSlice st.todoAcct.data = some a) :
    process_new_todo pid systemProgramID rc cts st name =
      (.error .BorshIoError,
       ⟨⟨st.todoAcct.owner,
         (encodeAccount ⟨a.todos ++ [⟨name, false, cts⟩]⟩).take st.todoAcct.data.length,
         st.todoAcct.lamports⟩, st.payerLamports⟩) := by
  obtain ⟨hdata, hva⟩ := tryFromSlice_sound _ a hb hdec
  have hne : st.todoAcct.data ≠ [] := by
    intro h0
    rw [h0, tryFromSlice_nil] at hdec
    exact Option.noConfusion hdec
  have hcond : ¬ (st.todoAcct.owner ≠ pid) := by rw [hown]; simp
  have hlt : ¬ ((encodeAccount ⟨a.todos ++ [⟨name, false, cts⟩]⟩).length ≤
      st.todoAcct.data.length) := by
    rw [hdata, encodeAccount_append_length,
      show (⟨a.todos⟩ : TodoAccount) = a from rfl]
    omega
  simp [process_new_todo, hne, hdec, hcond, writeSerialize, hlt]

theorem encodeAccount_singleton_length (t : Todo) :
    (encodeAccount ⟨[t]⟩).length = 17 + t.name.length := by
  rw [encodeAccount_length, encodeTodos_cons]
  simp [encodeTodos, encodeTodo_length]
  omega

theorem new_todo_empty (pid : Pubkey) (rc cts : Nat) (st : ExecState) (name : List Nat)
    (hempty : st.todoAcct.data = []) (hlen : name.length ≤ 1007) :
    process_new_todo pid systemProgramID rc cts st name =
      (.ok (), ⟨⟨pid,
        encodeAccount ⟨[⟨name, false, cts⟩]⟩ ++ List.replicate (1007 - name.length) 0,
        rc⟩, st.payerLamports - rc⟩) := by
  have hsz : (encodeAccount ⟨[(⟨name, false, cts⟩ : Todo)]⟩).length = 17 + name.length :=
    encodeAccount_singleton_length _
  have hle : (encodeAccount ⟨[(⟨name, false, cts⟩ : Todo)]⟩).length ≤ ACCOUNT_SPACE := by
    rw [hsz]
    simp only [ACCOUNT_SPACE]
    omega
  have hdrop : List.drop (encodeAccount ⟨[(⟨name, false, cts⟩ : Todo)]⟩).length
      (List.replicate ACCOUNT_SPACE 0) = List.replicate (1007 - name.length) 0 := by
    rw [hsz, List.drop_replicate]
    congr 1
    simp only [ACCOUNT_SPACE]
    omega
  simp [process_new_todo, hempty, writeSerialize, hle, hdrop]

theorem take_append_exact (l r : List Nat) (m : Nat) :
    (l ++ r).take (l.length + m) = l ++ r.take m := by
  induction l with
  | nil => simp
  | cons x l ih => simp [List.take, ih, Nat.succ_add]

/-- Truncating the re-encoding of an account with one appended item back to
the old buffer length yields bytes that no longer deserialize: the element
count says one more item than the bytes contain. -/
theorem tryFromSlice_truncated_append (a : TodoAccount) (t : Todo)
    (hva : ValidAccount a) :
    tryFromSlice ((encodeAccount ⟨a.todos ++ [t]⟩).take (encodeAccount a).length) =
      none := by
  obtain ⟨hvt, hlen⟩ := hva
  have h1 : encodeAccount ⟨a.todos ++ [t]⟩ =
      toLE 4 (a.todos.length + 1) ++ (encodeTodos a.todos ++ encodeTodo t) := by
    simp [encodeAccount, encodeTodos_append]
  have h3 : (encodeAccount ⟨a.todos ++ [t]⟩).take (encodeAccount a).length =
      toLE 4 (a.todos.length + 1) ++ encodeTodos a.todos := by
    rw [h1, encodeAccount_length,
      show (4 : Nat) + (encodeTodos a.todos).length =
        (toLE 4 (a.todos.length + 1)).length + (encodeTodos a.todos).length from by
          rw [toLE_length],
      take_append_exact, List.take_left]
  have h4 := readBytes_append (toLE 4 (a.todos.length + 1)) (encodeTodos a.todos)
  rw [toLE_length] at h4
  have h5 : readU32 (toLE 4 (a.todos.length + 1) ++ encodeTodos a.todos) =
      some ((a.todos.length + 1) % 256 ^ 4, encodeTodos a.todos) := by
    unfold readU32
    rw [h4]
    simp [fromLE_toLE_mod]
  by_cases hc : a.todos.length + 1 < 256 ^ 4
  · have h6 : (a.todos.length + 1) % 4294967296 = a.todos.length + 1 :=
      Nat.mod_eq_of_lt (by norm_num at hc ⊢; omega)
    have h7 : decodeTodos (a.todos.length + 1) (encodeTodos a.todos) = none :=
      decodeTodos_exhausted _ _ _ (decodeTodos_encode_nil a.todos hvt)
    simp [tryFromSlice, decodeAccount, h3, h5, h6, h7]
  · have h6 : (a.todos.length + 1) % 4294967296 = 0 := by
      have h8 : a.todos.length + 1 = 4294967296 := by
        norm_num at hlen hc ⊢
        omega
      rw [h8]
    have hne : encodeTodos a.todos ≠ [] := by
      cases hts : a.todos with
      | nil =>
        rw [hts] at hc
        norm_num at hc
      | cons v vs =>
        rw [encodeTodos_cons]
        intro hc2
        have hc3 := congrArg List.length hc2
        rw [List.length_append, encodeTodo_length] at hc3
        simp at hc3
    simp [tryFromSlice, decodeAccount, decodeTodos, h3, h5, h6, hne]

/-- The only error the Borsh write-back can produce. -/
theorem writeSerialize_error (a : TodoAccount) (buf : List Nat) (e : ProgramError)
    (h : (writeSerialize a buf).1 = .error e) : e = .BorshIoError := by
  simp only [writeSerialize] at h
  split at h
  · exact absurd h (by simp)
  · simp at h
    exact h.symm

theorem mark_done_error_unchanged (pid : Pubkey) (acct : AccountState)
    (name : List Nat) (e : ProgramError) (hb : Bytes acct.data)
    (h : (process_mark_done pid acct name).1 = .error e) :
    (process_mark_done pid acct name).2 = acct := by
  by_cases h1 : acct.owner ≠ pid
  · simp [process_mark_done, h1]
  · have hown : acct.owner = pid := not_not.1 h1
    cases h2 : tryFromSlice acct.data with
    | none => simp [process_mark_done, h1, h2]
    | some a =>
      cases h3 : a.todos.find? (fun u => u.name == name) with
      | none => simp [process_mark_done, h1, h2, h3]
      | some t =>
        by_cases h4 : t.done = true
        · simp [process_mark_done, h1, h2, h3, h4]
        · have h5 := mark_done_success pid acct name a t hb hown h2 h3
            (by simpa using h4)
          rw [h5] at h
          exact absurd h (by simp)

theorem new_todo_error_unchanged (pid sk : Pubkey) (rc cts : Nat) (st : ExecState)
    (name : List Nat) (e : ProgramError)
    (h : (process_new_todo pid sk rc cts st name).1 = .error e)
    (hne : e ≠ .BorshIoError) :
    (process_new_todo pid sk rc cts st name).2 = st := by
  by_cases h1 : sk ≠ systemProgramID
  · simp [process_new_todo, h1]
  · by_cases h2 : st.todoAcct.data = []
    · simp [process_new_todo, h1, h2] at h
      exact absurd (writeSerialize_error _ _ e h) hne
    · cases h3 : tryFromSlice st.todoAcct.data with
      | none => simp [process_new_todo, h1, h2, h3]
      | some a =>
        by_cases h4 : st.todoAcct.owner ≠ pid
        · simp [process_new_todo, h1, h2, h3, h4]
        · simp [process_new_todo, h1, h2, h3, h4] at h
          exact absurd (writeSerialize_error _ _ e h) hne

theorem mark_done_owner_mismatch (pid : Pubkey) (acct : AccountState)
    (name : List Nat) (hown : acct.owner ≠ pid) :
    process_mark_done pid acct name = (.error .IncorrectProgramId, acct) := by
  simp [process_mark_done, hown]

theorem new_todo_owner_mismatch (pid : Pubkey) (rc cts : Nat) (st : ExecState)
    (name : List Nat) (a : TodoAccount)
    (hown : st.todoAcct.owner ≠ pid)
    (hdec : tryFromSlice st.todoAcct.data = some a) :
    process_new_todo pid systemProgramID rc cts st name =
      (.error .IncorrectProgramId, st) := by
  have hne : st.todoAcct.data ≠ [] := by
    intro h0
    rw [h0, tryFromSlice_nil] at hdec
    exact Option.noConfusion hdec
  simp [process_new_todo, hne, hdec, hown]

theorem unpack_bad_tag (v : Nat) (rest : List Nat) (hv : 2 ≤ v) :
    unpack (v :: rest) = .error .InvalidInstructionData := by
  obtain ⟨w, rfl⟩ : ∃ w, v = w + 2 := ⟨v - 2, by omega⟩
  simp [unpack]

theorem getElemQ_lt (l : List Todo) (i : Nat) (t : Todo) (h : l[i]? = some t) :
    i < l.length := by
  by_contra hc
  rw [List.getElem?_eq_none (by omega)] at h
  exact Option.noConfusion h

theorem getElemQ_set_eq (l : List Todo) (i : Nat) (x : Todo) (h : i < l.length) :
    (l.set i x)[i]? = some x := by
  induction l generalizing i with
  | nil => simp at h
  | cons v l ih =>
    cases i with
    | zero => simp
    | succ i =>
      simp only [List.set_cons_succ, List.getElem?_cons_succ]
      exact ih i (by simpa using h)

theorem getElemQ_set_ne (l : List Todo) (i j : Nat) (x : Todo) (h : j ≠ i) :
    (l.set i x)[j]? = l[j]? := by
  induction l generalizing i j with
  | nil => simp
  | cons v l ih =>
    cases i with
    | zero =>
      cases j with
      | zero => exact absurd rfl h
      | succ j => simp
    | succ i =>
      cases j with
      | zero => simp
      | succ j =>
        simp only [List.set_cons_succ, List.getElem?_cons_succ]
        exact ih i j (by omega)

theorem doneMono_refl (a : TodoAccount) : doneMono a a := by
  intro i t t2 h h2 hd
  rw [h] at h2
  injection h2 with h3
  rw [← h3]
  exact hd

/-! ## The claims -/

/-- C1: the collection codec round-trips.  Forward: for every valid
collection, `try_from_slice` of its Borsh encoding returns it.  Backward:
any byte buffer that `try_from_slice` accepts re-encodes byte-for-byte to
the same buffer, so an unmodified decode→encode round trip preserves the
serialized form exactly. -/
theorem C1_codec_roundtrip (a : TodoAccount) (bs : List Nat)
    (hv : ValidAccount a) (hb : Bytes bs) :
    tryFromSlice (encodeAccount a) = some a ∧
    (∀ a2 : TodoAccount, tryFromSlice bs = some a2 → encodeAccount a2 = bs) :=
  ⟨tryFromSlice_encode a hv,
   fun a2 h => (tryFromSlice_sound bs a2 hb h).1.symm⟩

theorem C1_codec_roundtrip_witness :
    ValidAccount ⟨[⟨[104, 105], false, 42⟩]⟩ ∧ Bytes [0, 0, 0, 0] ∧
    (tryFromSlice (encodeAccount ⟨[⟨[104, 105], false, 42⟩]⟩) =
        some ⟨[⟨[104, 105], false, 42⟩]⟩ ∧
     ∀ a2 : TodoAccount, tryFromSlice [0, 0, 0, 0] = some a2 →
        encodeAccount a2 = [0, 0, 0, 0]) :=
  ⟨by decide, by decide,
   C1_codec_roundtrip ⟨[⟨[104, 105], false, 42⟩]⟩ [0, 0, 0, 0] (by decide) (by decide)⟩

/-- C2: `TodoInstruction::unpack` classifies every input: tag `0` with a
decodable length-prefixed string yields `NewTodo`, tag `1` yields
`MarkDone`, and an empty input, an unknown tag, or an undecodable string
payload yield `InvalidInstructionData` (the code's `MalformedInstruction`).
The embedding is a pure function, so the operation has no side effects by
construction. -/
theorem C2_unpack_spec :
    unpack [] = .error .InvalidInstructionData ∧
    (∀ rest name extra : List Nat, decodeString rest = some (name, extra) →
      unpack (0 :: rest) = .ok (.NewTodo name) ∧
      unpack (1 :: rest) = .ok (.MarkDone name)) ∧
    (∀ rest : List Nat, decodeString rest = none →
      unpack (0 :: rest) = .error .InvalidInstructionData ∧
      unpack (1 :: rest) = .error .InvalidInstructionData) ∧
    (∀ (v : Nat) (rest : List Nat), 2 ≤ v →
      unpack (v :: rest) = .error .InvalidInstructionData) := by
  refine ⟨rfl, ?_, ?_, ?_⟩
  · intro rest name extra h
    constructor <;> simp [unpack, h]
  · intro rest h
    constructor <;> simp [unpack, h]
  · exact fun v rest hv => unpack_bad_tag v rest hv

theorem C2_unpack_spec_witness :
    decodeString [1, 0, 0, 0, 104] = some ([104], []) ∧
    unpack [0, 1, 0, 0, 0, 104] = .ok (.NewTodo [104]) ∧
    unpack [1, 1, 0, 0, 0, 104] = .ok (.MarkDone [104]) ∧
    2 ≤ 7 ∧ unpack [7, 1, 0, 0, 0, 104] = .error .InvalidInstructionData :=
  ⟨by decide,
   (C2_unpack_spec.2.1 [1, 0, 0, 0, 104] [104] [] (by decide)).1,
   (C2_unpack_spec.2.1 [1, 0, 0, 0, 104] [104] [] (by decide)).2,
   by decide,
   C2_unpack_spec.2.2.2 7 [1, 0, 0, 0, 104] (by decide)⟩

/-- C3 (counterexample): the Add operation does not succeed for every
name.  A 1008-byte name makes the encoded one-element collection 1025
bytes long, which overflows the fixed 1024-byte allocation: the Borsh
write-back fails and the call returns an error instead of succeeding. -/
theorem C3_counterexample :
    (process_new_todo 1 systemProgramID 5 7 ⟨⟨1, [], 0⟩, 100⟩
        (List.replicate 1008 97)).1 = .error .BorshIoError ∧
    (process_new_todo 1 systemProgramID 5 7 ⟨⟨1, [], 0⟩, 100⟩
        (List.replicate 1008 97)).1 ≠ .ok () := by
  constructor
  · decide
  · decide

/-- C3 (amended): for every name whose encoding fits the 1024-byte
allocation (name at most 1007 bytes) and every clock value, Add against
empty storage succeeds and the stored bytes are exactly the encoding of
the one-element collection `[{name, done := false, created_at := clock}]`
followed by zero padding, with the account owned by the program. -/
theorem C3_add_to_empty (pid : Pubkey) (rc cts : Nat) (st : ExecState)
    (name : List Nat)
    (hempty : st.todoAcct.data = []) (hlen : name.length ≤ 1007) :
    (process_new_todo pid systemProgramID rc cts st name).1 = .ok () ∧
    (process_new_todo pid systemProgramID rc cts st name).2.todoAcct.data =
      encodeAccount ⟨[⟨name, false, cts⟩]⟩ ++
        List.replicate (1007 - name.length) 0 ∧
    (process_new_todo pid systemProgramID rc cts st name).2.todoAcct.owner = pid := by
  rw [new_todo_empty pid rc cts st name hempty hlen]
  exact ⟨rfl, rfl, rfl⟩

theorem C3_add_to_empty_witness :
    ((⟨⟨7, [], 0⟩, 50⟩ : ExecState).todoAcct.data = []) ∧
    (([104, 105] : List Nat).length ≤ 1007) ∧
    ((process_new_todo 3 systemProgramID 5 9 ⟨⟨7, [], 0⟩, 50⟩ [104, 105]).1 = .ok () ∧
     (process_new_todo 3 systemProgramID 5 9 ⟨⟨7, [], 0⟩, 50⟩ [104, 105]).2.todoAcct.data =
       encodeAccount ⟨[⟨[104, 105], false, 9⟩]⟩ ++ List.replicate (1007 - 2) 0 ∧
     (process_new_todo 3 systemProgramID 5 9 ⟨⟨7, [], 0⟩, 50⟩ [104, 105]).2.todoAcct.owner = 3) := by
  refine ⟨rfl, by decide, ?_⟩
  have h := C3_add_to_empty 3 5 9 ⟨⟨7, [], 0⟩, 50⟩ [104, 105] rfl (by decide)
  simpa using h

/-- C4: under the stated preconditions (owner matches, the stored bytes
decode, the first item whose name equals the target is not done), MarkDone
succeeds, flips `done` on exactly the first match in insertion order
(preserving its name and timestamp), re-encodes the collection with every
other position untouched, and leaves owner and balance unchanged.  Later
duplicates are never the selected item because every index before the
selected one fails the name test. -/
theorem C4_markdone_first_match (pid : Pubkey) (acct : AccountState)
    (name : List Nat) (a : TodoAccount) (t : Todo)
    (hb : Bytes acct.data)
    (hown : acct.owner = pid)
    (hdec : tryFromSlice acct.data = some a)
    (hfind : a.todos.find? (fun u => u.name == name) = some t)
    (hnd : t.done = false) :
    (process_mark_done pid acct name).1 = .ok () ∧
    t.name = name ∧
    (∃ i : Nat, a.todos[i]? = some t ∧
      (∀ j : Nat, j < i → ∀ u : Todo, a.todos[j]? = some u → u.name ≠ name) ∧
      (process_mark_done pid acct name).2.data =
        encodeAccount ⟨a.todos.set i ⟨t.name, true, t.publish_date⟩⟩ ∧
      (a.todos.set i ⟨t.name, true, t.publish_date⟩)[i]? =
        some ⟨t.name, true, t.publish_date⟩ ∧
      (∀ j : Nat, j ≠ i →
        (a.todos.set i ⟨t.name, true, t.publish_date⟩)[j]? = a.todos[j]?)) ∧
    (process_mark_done pid acct name).2.owner = acct.owner ∧
    (process_mark_done pid acct name).2.lamports = acct.lamports := by
  have hs := mark_done_success pid acct name a t hb hown hdec hfind hnd
  obtain ⟨i, hi1, hi2, hi3⟩ := setDoneFirst_spec a.todos name t hfind
  rw [hs]
  refine ⟨rfl, ?_, ⟨i, hi1, hi2, ?_, ?_, ?_⟩, rfl, rfl⟩
  · have h2 := List.find?_some hfind
    simpa using h2
  · rw [hi3]
  · exact getElemQ_set_eq a.todos i _ (getElemQ_lt a.todos i t hi1)
  · exact fun j hj => getElemQ_set_ne a.todos i j _ hj

theorem C4_markdone_first_match_witness :
    Bytes (encodeAccount ⟨[⟨[120], false, 3⟩, ⟨[121], false, 4⟩]⟩) ∧
    tryFromSlice (encodeAccount ⟨[⟨[120], false, 3⟩, ⟨[121], false, 4⟩]⟩) =
      some ⟨[⟨[120], false, 3⟩, ⟨[121], false, 4⟩]⟩ ∧
    (⟨[⟨[120], false, 3⟩, ⟨[121], false, 4⟩]⟩ : TodoAccount).todos.find?
      (fun u => u.name == [121]) = some ⟨[121], false, 4⟩ ∧
    ((process_mark_done 1
        ⟨1, encodeAccount ⟨[⟨[120], false, 3⟩, ⟨[121], false, 4⟩]⟩, 6⟩ [121]).1 =
      .ok ()) := by
  refine ⟨by decide, by decide, by decide, ?_⟩
  have h := C4_markdone_first_match 1
    ⟨1, encodeAccount ⟨[⟨[120], false, 3⟩, ⟨[121], false, 4⟩]⟩, 6⟩ [121]
    ⟨[⟨[120], false, 3⟩, ⟨[121], false, 4⟩]⟩ ⟨[121], false, 4⟩
    (by decide) rfl (by decide) (by decide) rfl
  exact h.1

/-- C5: the `done` flag is monotonic and `MarkDone` rejects an
already-done first match.  Parts 1 and 2: whenever the buffer decodes
before and after an Add or a MarkDone, no position's `done` flag goes from
`true` to `false`.  Part 3: when the first name match is already done the
call returns `InvalidAccountData` (the code's `AlreadyDone`) and the
account is unchanged. -/
theorem C5_done_monotonic :
    (∀ (pid sk : Pubkey) (rc cts : Nat) (st : ExecState) (name : List Nat)
        (a a2 : TodoAccount),
      Bytes st.todoAcct.data →
      tryFromSlice st.todoAcct.data = some a →
      tryFromSlice (process_new_todo pid sk rc cts st name).2.todoAcct.data = some a2 →
      doneMono a a2) ∧
    (∀ (pid : Pubkey) (acct : AccountState) (name : List Nat) (a a2 : TodoAccount),
      Bytes acct.data →
      tryFromSlice acct.data = some a →
      tryFromSlice (process_mark_done pid acct name).2.data = some a2 →
      doneMono a a2) ∧
    (∀ (pid : Pubkey) (acct : AccountState) (name : List Nat) (a : TodoAccount)
        (t : Todo),
      acct.owner = pid →
      tryFromSlice acct.data = some a →
      a.todos.find? (fun u => u.name == name) = some t →
      t.done = true →
      process_mark_done pid acct name = (.error .InvalidAccountData, acct)) := by
  refine ⟨?_, ?_, ?_⟩
  · intro pid sk rc cts st name a a2 hb hdec hdec2
    by_cases h1 : sk ≠ systemProgramID
    · have hst : (process_new_todo pid sk rc cts st name).2 = st := by
        simp [process_new_todo, h1]
      rw [hst, hdec] at hdec2
      injection hdec2 with h3
      rw [← h3]
      exact doneMono_refl a
    · have hsk : sk = systemProgramID := not_not.1 h1
      subst hsk
      by_cases h4 : st.todoAcct.owner ≠ pid
      · have hst := new_todo_owner_mismatch pid rc cts st name a h4 hdec
        have h5 : tryFromSlice st.todoAcct.data = some a2 := by
          rw [hst] at hdec2
          simpa using hdec2
        rw [hdec] at h5
        injection h5 with h6
        rw [← h6]
        exact doneMono_refl a
      · have hown : st.todoAcct.owner = pid := not_not.1 h4
        have hov := new_todo_nonempty_overflow pid rc cts st name a hb hown hdec
        obtain ⟨hdata, hva⟩ := tryFromSlice_sound _ a hb hdec
        have h5 : tryFromSlice ((encodeAccount ⟨a.todos ++ [⟨name, false, cts⟩]⟩).take
            st.todoAcct.data.length) = some a2 := by
          rw [hov] at hdec2
          simpa using hdec2
        have hlen : st.todoAcct.data.length = (encodeAccount a).length := by
          rw [hdata]
        rw [hlen, tryFromSlice_truncated_append a ⟨name, false, cts⟩ hva] at h5
        exact Option.noConfusion h5
  · intro pid acct name a a2 hb hdec hdec2
    by_cases h1 : acct.owner ≠ pid
    · have hst := mark_done_owner_mismatch pid acct name h1
      have h5 : tryFromSlice acct.data = some a2 := by
        rw [hst] at hdec2
        simpa using hdec2
      rw [hdec] at h5
      injection h5 with h6
      rw [← h6]
      exact doneMono_refl a
    · have hown : acct.owner = pid := not_not.1 h1
      cases h3 : a.todos.find? (fun u => u.name == name) with
      | none =>
        have hst : process_mark_done pid acct name =
            (.error .InvalidInstructionData, acct) := by
          simp [process_mark_done, h1, hdec, h3]
        have h5 : tryFromSlice acct.data = some a2 := by
          rw [hst] at hdec2
          simpa using hdec2
        rw [hdec] at h5
        injection h5 with h6
        rw [← h6]
        exact doneMono_refl a
      | some t =>
        by_cases h4 : t.done = true
        · have hst : process_mark_done pid acct name =
              (.error .InvalidAccountData, acct) := by
            simp [process_mark_done, h1, hdec, h3, h4]
          have h5 : tryFromSlice acct.data = some a2 := by
            rw [hst] at hdec2
            simpa using hdec2
          rw [hdec] at h5
          injection h5 with h6
          rw [← h6]
          exact doneMono_refl a
        · have hs := mark_done_success pid acct name a t hb hown hdec h3
            (by simpa using h4)
          obtain ⟨hdata, hva⟩ := tryFromSlice_sound _ a hb hdec
          have hva2 : ValidAccount ⟨setDoneFirst a.todos name⟩ := by
            refine ⟨setDoneFirst_valid a.todos name hva.1, ?_⟩
            have h7 := hva.2
            simpa [setDoneFirst_length] using h7
          have h5 : tryFromSlice (encodeAccount ⟨setDoneFirst a.todos name⟩) =
              some a2 := by
            rw [hs] at hdec2
            simpa using hdec2
          rw [tryFromSlice_encode _ hva2] at h5
          injection h5 with h6
          rw [← h6]
          intro i u u2 hu hu2 hd
          exact setDoneFirst_mono a.todos name i u u2 hu (by simpa using hu2) hd
  · intro pid acct name a t hown hdec hfind hdone
    have h1 : ¬ (acct.owner ≠ pid) := by rw [hown]; simp
    simp [process_mark_done, h1, hdec, hfind, hdone]

theorem C5_done_monotonic_witness :
    ((⟨1, encodeAccount ⟨[⟨[120], true, 0⟩]⟩, 0⟩ : AccountState).owner = 1) ∧
    tryFromSlice (⟨1, encodeAccount ⟨[⟨[120], true, 0⟩]⟩, 0⟩ : AccountState).data =
      some ⟨[⟨[120], true, 0⟩]⟩ ∧
    process_mark_done 1 ⟨1, encodeAccount ⟨[⟨[120], true, 0⟩]⟩, 0⟩ [120] =
      (.error .InvalidAccountData, ⟨1, encodeAccount ⟨[⟨[120], true, 0⟩]⟩, 0⟩) :=
  ⟨rfl, by decide,
   C5_done_monotonic.2.2 1 ⟨1, encodeAccount ⟨[⟨[120], true, 0⟩]⟩, 0⟩ [120]
     ⟨[⟨[120], true, 0⟩]⟩ ⟨[120], true, 0⟩ rfl (by decide) (by decide) rfl⟩

/-- C6: when the owner matches and the stored collection decodes but no
item's name equals the target, MarkDone returns `InvalidInstructionData`
(the code's `ItemNotFound`) and the account — its buffer byte-for-byte,
its owner and its balance — is returned unchanged. -/
theorem C6_notfound (pid : Pubkey) (acct : AccountState) (name : List Nat)
    (a : TodoAccount)
    (hown : acct.owner = pid)
    (hdec : tryFromSlice acct.data = some a)
    (habs : ∀ t ∈ a.todos, t.name ≠ name) :
    process_mark_done pid acct name = (.error .InvalidInstructionData, acct) := by
  have h1 : ¬ (acct.owner ≠ pid) := by rw [hown]; simp
  have hf : a.todos.find? (fun u => u.name == name) = none := by
    rw [List.find?_eq_none]
    intro t ht
    simpa using habs t ht
  simp [process_mark_done, h1, hdec, hf]

theorem C6_notfound_witness :
    ((⟨2, encodeAccount ⟨[⟨[120], false, 3⟩]⟩, 9⟩ : AccountState).owner = 2) ∧
    tryFromSlice (⟨2, encodeAccount ⟨[⟨[120], false, 3⟩]⟩, 9⟩ : AccountState).data =
      some ⟨[⟨[120], false, 3⟩]⟩ ∧
    process_mark_done 2 ⟨2, encodeAccount ⟨[⟨[120], false, 3⟩]⟩, 9⟩ [122] =
      (.error .InvalidInstructionData, ⟨2, encodeAccount ⟨[⟨[120], false, 3⟩]⟩, 9⟩) :=
  ⟨rfl, by decide,
   C6_notfound 2 ⟨2, encodeAccount ⟨[⟨[120], false, 3⟩]⟩, 9⟩ [122]
     ⟨[⟨[120], false, 3⟩]⟩ rfl (by decide) (by decide)⟩

/-- C7 (counterexample): on the Add path the owner check does not run
before the decode.  With a mismatched owner (2 instead of 1) and a
non-empty, non-decodable buffer, the call returns the decode error
`InvalidAccountData` (`CorruptState`), not `IncorrectProgramId`
(`PermissionDenied`) — so the decode was attempted first. -/
theorem C7_counterexample :
    (process_new_todo 1 systemProgramID 0 0 ⟨⟨2, [255], 0⟩, 0⟩ []).1 =
      .error .InvalidAccountData ∧
    (process_new_todo 1 systemProgramID 0 0 ⟨⟨2, [255], 0⟩, 0⟩ []).1 ≠
      .error .IncorrectProgramId := by
  constructor
  · decide
  · decide

/-- C7 (amended): on MarkDone the owner check runs first — a mismatch
returns `IncorrectProgramId` (`PermissionDenied`) with nothing decoded or
mutated.  On Add the collection is decoded (or storage allocated) first;
owner mismatch is reported only after a successful decode, still before
any mutation, leaving the state unchanged. -/
theorem C7_owner_check :
    (∀ (pid : Pubkey) (acct : AccountState) (name : List Nat),
      acct.owner ≠ pid →
      process_mark_done pid acct name = (.error .IncorrectProgramId, acct)) ∧
    (∀ (pid : Pubkey) (rc cts : Nat) (st : ExecState) (name : List Nat)
        (a : TodoAccount),
      st.todoAcct.owner ≠ pid →
      tryFromSlice st.todoAcct.data = some a →
      process_new_todo pid systemProgramID rc cts st name =
        (.error .IncorrectProgramId, st)) :=
  ⟨fun pid acct name h => mark_done_owner_mismatch pid acct name h,
   fun pid rc cts st name a h hdec =>
    new_todo_owner_mismatch pid rc cts st name a h hdec⟩

theorem C7_owner_check_witness :
    process_mark_done 1 ⟨2, [5], 3⟩ [120] = (.error .IncorrectProgramId, ⟨2, [5], 3⟩) ∧
    process_new_todo 1 systemProgramID 0 0
        ⟨⟨2, encodeAccount ⟨[⟨[120], false, 3⟩]⟩, 0⟩, 0⟩ [121] =
      (.error .IncorrectProgramId, ⟨⟨2, encodeAccount ⟨[⟨[120], false, 3⟩]⟩, 0⟩, 0⟩) :=
  ⟨C7_owner_check.1 1 ⟨2, [5], 3⟩ [120] (by decide),
   C7_owner_check.2 1 0 0 ⟨⟨2, encodeAccount ⟨[⟨[120], false, 3⟩]⟩, 0⟩, 0⟩ [121]
     ⟨[⟨[120], false, 3⟩]⟩ (by decide) (by decide)⟩

/-- C8 (counterexample): adding "X" twice does not yield two entries, and
duplicates are not both markable.  End-to-end, the first Add succeeds but
pads the 1024-byte account with zeros, so the second Add's
`try_from_slice` fails (`InvalidAccountData`) and no second entry is
created.  At the collection level, with two entries named "X" the first
MarkDone succeeds on the first entry, and a second MarkDone returns the
already-done error while the second duplicate remains `done = false` —
the duplicate is not independently markable. -/
theorem C8_counterexample :
    (process_new_todo 1 systemProgramID 5 7 ⟨⟨9, [], 0⟩, 100⟩ [88]).1 = .ok () ∧
    (process_new_todo 1 systemProgramID 5 7
        (process_new_todo 1 systemProgramID 5 7 ⟨⟨9, [], 0⟩, 100⟩ [88]).2 [88]).1 =
      .error .InvalidAccountData ∧
    (process_mark_done 1
        ⟨1, encodeAccount ⟨[⟨[88], false, 0⟩, ⟨[88], false, 0⟩]⟩, 0⟩ [88]).1 =
      .ok () ∧
    (process_mark_done 1
        (process_mark_done 1
          ⟨1, encodeAccount ⟨[⟨[88], false, 0⟩, ⟨[88], false, 0⟩]⟩, 0⟩ [88]).2
        [88]).1 = .error .InvalidAccountData ∧
    tryFromSlice ((process_mark_done 1
        (process_mark_done 1
          ⟨1, encodeAccount ⟨[⟨[88], false, 0⟩, ⟨[88], false, 0⟩]⟩, 0⟩ [88]).2
        [88]).2.data) = some ⟨[⟨[88], true, 0⟩, ⟨[88], false, 0⟩]⟩ := by
  refine ⟨by decide, by decide, by decide, by decide, by decide⟩

/-- C8 (amended): appending the same name twice produces two distinct
entries, but (1) end-to-end the second Add is unreachable: any Add on an
initialized, decodable buffer fails with a Borsh write error because the
grown encoding cannot fit the exactly-consumed buffer; and (2) the
duplicates are not independently markable: on a collection with two
entries named X, MarkDone selects the first, and once it is done a second
MarkDone returns the already-done error with the second entry still
pending. -/
theorem C8_duplicates :
    (∀ (pid : Pubkey) (rc cts : Nat) (st : ExecState) (name : List Nat)
        (a : TodoAccount),
      Bytes st.todoAcct.data → st.todoAcct.owner = pid →
      tryFromSlice st.todoAcct.data = some a →
      (process_new_todo pid systemProgramID rc cts st name).1 =
        .error .BorshIoError) ∧
    (∀ (pid : Pubkey) (name : List Nat) (t1 t2 lam : Nat),
      ValidTodo ⟨name, false, t1⟩ → ValidTodo ⟨name, false, t2⟩ →
      process_mark_done pid
          ⟨pid, encodeAccount ⟨[⟨name, false, t1⟩, ⟨name, false, t2⟩]⟩, lam⟩ name =
        (.ok (), ⟨pid, encodeAccount ⟨[⟨name, true, t1⟩, ⟨name, false, t2⟩]⟩, lam⟩) ∧
      process_mark_done pid
          ⟨pid, encodeAccount ⟨[⟨name, true, t1⟩, ⟨name, false, t2⟩]⟩, lam⟩ name =
        (.error .InvalidAccountData,
         ⟨pid, encodeAccount ⟨[⟨name, true, t1⟩, ⟨name, false, t2⟩]⟩, lam⟩)) := by
  constructor
  · intro pid rc cts st name a hb hown hdec
    rw [new_todo_nonempty_overflow pid rc cts st name a hb hown hdec]
  · intro pid name t1 t2 lam hv1 hv2
    have hva : ValidAccount ⟨[⟨name, false, t1⟩, ⟨name, false, t2⟩]⟩ := by
      refine ⟨?_, by simp⟩
      intro u hu
      rcases List.mem_cons.1 hu with h1 | h1
      · rw [h1]; exact hv1
      · rcases List.mem_cons.1 h1 with h2 | h2
        · rw [h2]; exact hv2
        · simp at h2
    have hbn : Bytes name := hv1.1
    have hb : Bytes (encodeAccount ⟨[⟨name, false, t1⟩, ⟨name, false, t2⟩]⟩) := by
      refine bytes_encodeAccount _ ?_
      intro u hu
      rcases List.mem_cons.1 hu with h1 | h1
      · rw [h1]; exact hbn
      · rcases List.mem_cons.1 h1 with h2 | h2
        · rw [h2]; exact hbn
        · simp at h2
    have hdec := tryFromSlice_encode _ hva
    have hfind : (⟨[⟨name, false, t1⟩, ⟨name, false, t2⟩]⟩ : TodoAccount).todos.find?
        (fun u => u.name == name) = some ⟨name, false, t1⟩ := by
      simp [List.find?]
    have hs := mark_done_success pid
      ⟨pid, encodeAccount ⟨[⟨name, false, t1⟩, ⟨name, false, t2⟩]⟩, lam⟩ name
      ⟨[⟨name, false, t1⟩, ⟨name, false, t2⟩]⟩ ⟨name, false, t1⟩ hb rfl hdec hfind rfl
    have hsd : setDoneFirst
        (⟨[⟨name, false, t1⟩, ⟨name, false, t2⟩]⟩ : TodoAccount).todos name =
        [⟨name, true, t1⟩, ⟨name, false, t2⟩] := by
      simp [setDoneFirst]
    rw [hsd] at hs
    refine ⟨hs, ?_⟩
    have hva2 : ValidAccount ⟨[⟨name, true, t1⟩, ⟨name, false, t2⟩]⟩ := by
      refine ⟨?_, by simp⟩
      intro u hu
      rcases List.mem_cons.1 hu with h1 | h1
      · rw [h1]; exact ⟨hv1.1, hv1.2.1, hv1.2.2.1, hv1.2.2.2⟩
      · rcases List.mem_cons.1 h1 with h2 | h2
        · rw [h2]; exact hv2
        · simp at h2
    have hdec2 := tryFromSlice_encode _ hva2
    have hfind2 : (⟨[⟨name, true, t1⟩, ⟨name, false, t2⟩]⟩ : TodoAccount).todos.find?
        (fun u => u.name == name) = some ⟨name, true, t1⟩ := by
      simp [List.find?]
    have h1 : ¬ ((⟨pid, encodeAccount ⟨[⟨name, true, t1⟩, ⟨name, false, t2⟩]⟩, lam⟩ :
        AccountState).owner ≠ pid) := by simp
    simp [process_mark_done, h1, hdec2, hfind2]

theorem C8_duplicates_witness :
    ((process_new_todo 1 systemProgramID 0 0
        ⟨⟨1, encodeAccount ⟨[⟨[120], false, 0⟩]⟩, 0⟩, 0⟩ [120]).1 =
      .error .BorshIoError) ∧
    process_mark_done 1
        ⟨1, encodeAccount ⟨[⟨[88], false, 2⟩, ⟨[88], false, 3⟩]⟩, 4⟩ [88] =
      (.ok (), ⟨1, encodeAccount ⟨[⟨[88], true, 2⟩, ⟨[88], false, 3⟩]⟩, 4⟩) :=
  ⟨C8_duplicates.1 1 0 0 ⟨⟨1, encodeAccount ⟨[⟨[120], false, 0⟩]⟩, 0⟩, 0⟩ [120]
     ⟨[⟨[120], false, 0⟩]⟩ (by decide) rfl (by decide),
   (C8_duplicates.2 1 [88] 2 3 4 (by decide) (by decide)).1⟩

/-- C9 (counterexample): an error does not always leave the state
untouched.  Adding a second item to an exactly-filled buffer fails with a
Borsh write error after overwriting the buffer with the bytes that fit;
and Add on an empty account with an oversized (1008-byte) name performs
the allocation and funding (payer debited, buffer allocated) before the
failing write. -/
theorem C9_counterexample :
    (process_new_todo 1 systemProgramID 5 7
        ⟨⟨1, encodeAccount ⟨[⟨[120], false, 0⟩]⟩, 0⟩, 100⟩ [121]).1 =
      .error .BorshIoError ∧
    (process_new_todo 1 systemProgramID 5 7
        ⟨⟨1, encodeAccount ⟨[⟨[120], false, 0⟩]⟩, 0⟩, 100⟩ [121]).2.todoAcct.data ≠
      encodeAccount ⟨[⟨[120], false, 0⟩]⟩ ∧
    (process_new_todo 1 systemProgramID 5 7 ⟨⟨9, [], 0⟩, 100⟩
        (List.replicate 1008 97)).1 = .error .BorshIoError ∧
    (process_new_todo 1 systemProgramID 5 7 ⟨⟨9, [], 0⟩, 100⟩
        (List.replicate 1008 97)).2.payerLamports = 95 ∧
    (process_new_todo 1 systemProgramID 5 7 ⟨⟨9, [], 0⟩, 100⟩
        (List.replicate 1008 97)).2.todoAcct.data ≠ [] := by
  refine ⟨by decide, by decide, by decide, by decide, by decide⟩

/-- C9 (amended): every error path except the final Borsh write-back
leaves the state exactly as it was.  MarkDone never fails its write-back
(the re-encoding has the same length as the consumed buffer), so every
MarkDone error leaves the account untouched; on Add, every error other
than `BorshIoError` leaves both the account and the payer untouched.  A
`BorshIoError` from the write-back can leave an allocation/funding effect
and a truncated write, which only the host's transaction atomicity rolls
back. -/
theorem C9_error_rollback :
    (∀ (pid : Pubkey) (acct : AccountState) (name : List Nat) (e : ProgramError),
      Bytes acct.data →
      (process_mark_done pid acct name).1 = .error e →
      (process_mark_done pid acct name).2 = acct) ∧
    (∀ (pid sk : Pubkey) (rc cts : Nat) (st : ExecState) (name : List Nat)
        (e : ProgramError),
      (process_new_todo pid sk rc cts st name).1 = .error e →
      e ≠ .BorshIoError →
      (process_new_todo pid sk rc cts st name).2 = st) :=
  ⟨fun pid acct name e hb h => mark_done_error_unchanged pid acct name e hb h,
   fun pid sk rc cts st name e h hne =>
    new_todo_error_unchanged pid sk rc cts st name e h hne⟩

theorem C9_error_rollback_witness :
    Bytes ([] : List Nat) ∧
    (process_mark_done 1 ⟨2, [], 0⟩ [120]).1 = .error .IncorrectProgramId ∧
    (process_mark_done 1 ⟨2, [], 0⟩ [120]).2 = ⟨2, [], 0⟩ ∧
    (process_new_todo 1 5 0 0 ⟨⟨1, [], 0⟩, 0⟩ [120]).1 = .error .IncorrectProgramId ∧
    (process_new_todo 1 5 0 0 ⟨⟨1, [], 0⟩, 0⟩ [120]).2 = ⟨⟨1, [], 0⟩, 0⟩ :=
  ⟨by decide, by decide,
   C9_error_rollback.1 1 ⟨2, [], 0⟩ [120] .IncorrectProgramId (by decide) (by decide),
   by decide,
   C9_error_rollback.2 1 5 0 0 ⟨⟨1, [], 0⟩, 0⟩ [120] .IncorrectProgramId
     (by decide) (by decide)⟩

/-- C10: the instruction decoder ignores trailing bytes.  For a payload
whose tag is `0` or `1` followed by a well-formed length-prefixed string,
`unpack` succeeds for any appended extra bytes, because it runs Borsh
`String::deserialize` (which stops after the encoded string) rather than
`try_from_slice`. -/
theorem C10_trailing_bytes_ignored (name extra : List Nat)
    (hu : utf8Valid name = true) (hl : name.length < 2 ^ 32) :
    unpack (0 :: (encodeString name ++ extra)) = .ok (.NewTodo name) ∧
    unpack (1 :: (encodeString name ++ extra)) = .ok (.MarkDone name) := by
  have h := decodeString_encode name extra hu hl
  constructor
  · simp [unpack, h]
  · simp [unpack, h]

theorem C10_trailing_bytes_ignored_witness :
    utf8Valid [104] = true ∧ ([104] : List Nat).length < 2 ^ 32 ∧
    (unpack (0 :: (encodeString [104] ++ [9, 9])) = .ok (.NewTodo [104]) ∧
     unpack (1 :: (encodeString [104] ++ [9, 9])) = .ok (.MarkDone [104])) :=
  ⟨by decide, by decide,
   C10_trailing_bytes_ignored [104] [9, 9] (by decide) (by decide)⟩

end TodoProgram
